import Mathlib

/-!
Verification of the text-rendering core of the `gemininini` repository.

The Rust sources are shallowly embedded:
* `String` values become `List Char`; byte offsets are modelled through
  `utf8Len` (the UTF-8 encoded size of a scalar value), so that
  `char_indices`, byte slicing and character boundaries are byte-faithful.
* `u32`/`usize` widths become `Nat`.  The pushed break offsets never depend on
  arithmetic wrap-around (they are always character offsets), so unbounded
  naturals are adequate for the properties below.
* `f32` metric values become `ℚ`; the `f32::INFINITY` / `f32::NEG_INFINITY`
  fold seeds of `Graph::min` / `Graph::max` are modelled by the three-valued
  type `FExt` (NaN-free, which matches every input the claims range over).
* Fallible operations (slice indexing, `unwrap`, integer underflow) return
  `Option`, with `none` standing for a Rust panic.
-/

namespace Gemininini

/-- UTF-8 encoded length in bytes of one Unicode scalar value
(`char::len_utf8` in Rust). -/
def utf8Len (c : Char) : Nat :=
  if c.toNat < 0x80 then 1
  else if c.toNat < 0x800 then 2
  else if c.toNat < 0x10000 then 3
  else 4

/-- Total UTF-8 byte length of a string (`str::len`). -/
def byteLen (s : List Char) : Nat := (s.map utf8Len).sum

/-- `str::char_indices` starting from byte offset `n`: each character paired
with its byte offset. -/
def charIndicesAux (n : Nat) : List Char → List (Nat × Char)
  | [] => []
  | c :: cs => (n, c) :: charIndicesAux (n + utf8Len c) cs

/-- `str::char_indices`. -/
def charIndices (s : List Char) : List (Nat × Char) := charIndicesAux 0 s

/-- Rust `char::is_whitespace` (the Unicode `White_Space` property). -/
def rustIsWhitespace (c : Char) : Bool :=
  (0x09 ≤ c.toNat && c.toNat ≤ 0x0D) || c.toNat == 0x20 || c.toNat == 0x85 ||
  c.toNat == 0xA0 || c.toNat == 0x1680 ||
  (0x2000 ≤ c.toNat && c.toNat ≤ 0x200A) ||
  c.toNat == 0x2028 || c.toNat == 0x2029 || c.toNat == 0x202F ||
  c.toNat == 0x205F || c.toNat == 0x3000

/-- Take the first `n` bytes of a string as characters; `none` when `n`
overruns the string or falls strictly inside a multi-byte character
(a Rust string-slicing panic). -/
def takeBytes : List Char → Nat → Option (List Char)
  | _, 0 => some []
  | [], _ + 1 => none
  | c :: cs, n + 1 =>
    if utf8Len c ≤ n + 1 then (takeBytes cs (n + 1 - utf8Len c)).map (c :: ·)
    else none

/-- Drop the first `n` bytes of a string; `none` models a slicing panic. -/
def dropBytes : List Char → Nat → Option (List Char)
  | s, 0 => some s
  | [], _ + 1 => none
  | c :: cs, n + 1 =>
    if utf8Len c ≤ n + 1 then dropBytes cs (n + 1 - utf8Len c)
    else none

/-- The byte slice `&s[lo..hi]`; `none` models the Rust panics for
`lo > hi`, offsets past the end, and offsets inside a character. -/
def byteSlice (s : List Char) (lo hi : Nat) : Option (List Char) :=
  if lo ≤ hi then (dropBytes s lo).bind (fun t => takeBytes t (hi - lo))
  else none

/-- `o` is a valid UTF-8 character boundary of `s`: the byte length of some
prefix of the character sequence. -/
def IsBoundary (s : List Char) (o : Nat) : Prop :=
  ∃ pre suf, s = pre ++ suf ∧ o = byteLen pre

/-! ## Font abstraction

The font comes from the external `fleck` crate (the repository's `font`
module only wraps it): a character maps to an optional glyph carrying a pixel
width and a row-major boolean coverage mask, and the font has one fixed line
height (spec §6, "Consumed — Font Source"). -/

/-- A glyph: pixel width and row-major boolean coverage mask. -/
structure Glyph where
  width : Nat
  rows : List (List Bool)
deriving DecidableEq

/-- The font source: optional glyph per character, fixed line height. -/
structure Font where
  glyph : Char → Option Glyph
  height : Nat

/-! ## `WrappedText::rewrap` (src/elements/wrapped_text.rs, lines 40–90) -/

/-- The local mutable state of the `rewrap` scan loop. -/
structure WrapState where
  scrapwidth : Nat
  wordwidth : Nat
  last_whitespace : Option Nat
  breaklist : List Nat
deriving DecidableEq

/-- One iteration of the `for (idx, ch) in text.char_indices()` loop body of
`WrappedText::rewrap`. -/
def rewrapStep (maxwidth : Option Nat) (font : Font) (st : WrapState)
    (p : Nat × Char) : WrapState :=
  let (idx, ch) := p
  if ch = '\n' then
    { scrapwidth := 0, wordwidth := 0, last_whitespace := none,
      breaklist := st.breaklist ++ [idx] }
  else
    match maxwidth with
    | some mw =>
      let st1 :=
        if rustIsWhitespace ch then
          { st with last_whitespace := some idx, wordwidth := 0 }
        else st
      let glyphwidth := (font.glyph ch).elim 0 Glyph.width
      if st1.scrapwidth + glyphwidth > mw then
        match st1.last_whitespace with
        | some br =>
          { st1 with breaklist := st1.breaklist ++ [br],
                     wordwidth := st1.wordwidth + glyphwidth,
                     scrapwidth := st1.wordwidth + glyphwidth }
        | none =>
          { st1 with breaklist := st1.breaklist ++ [idx],
                     wordwidth := glyphwidth,
                     scrapwidth := glyphwidth }
      else
        { st1 with wordwidth := st1.wordwidth + glyphwidth,
                   scrapwidth := st1.scrapwidth + glyphwidth }
    | none => st

/-- `WrappedText::rewrap`: scan the text, then push `text.len()` as the final
boundary.  Returns the fresh breaklist. -/
def rewrap (text : List Char) (maxwidth : Option Nat) (font : Font) :
    List Nat :=
  ((charIndices text).foldl (rewrapStep maxwidth font)
      ⟨0, 0, none, []⟩).breaklist ++ [byteLen text]

/-! ## `WrappedText::lines` (src/elements/wrapped_text.rs, lines 93–104) -/

/-- The per-line post-processing of `lines()`: when the first character of
the slice is whitespace the code takes `&a[1..]`; that slice is valid only
when that character occupies one byte, otherwise Rust panics (`none`). -/
def stripLeadingWs : List Char → Option (List Char)
  | [] => some []
  | c :: cs =>
    if rustIsWhitespace c then
      if utf8Len c = 1 then some cs else none
    else some (c :: cs)

/-- The `lines()` iterator, collected: successively slice
`&text[runner..breakpoint]` and strip a leading whitespace byte.  `none`
models a panic in any step. -/
def linesAux (text : List Char) : Nat → List Nat → Option (List (List Char))
  | _, [] => some []
  | runner, bp :: rest => do
    let a ← byteSlice text runner bp
    let line ← stripLeadingWs a
    let more ← linesAux text bp rest
    pure (line :: more)

/-- `WrappedText::lines`, collected into a list. -/
def linesOf (text : List Char) (breaklist : List Nat) :
    Option (List (List Char)) :=
  linesAux text 0 breaklist

/-- The raw slices `&text[runner..breakpoint]` before whitespace stripping
(used to state what `lines()` drops). -/
def rawSegmentsAux (text : List Char) :
    Nat → List Nat → Option (List (List Char))
  | _, [] => some []
  | runner, bp :: rest => do
    let a ← byteSlice text runner bp
    let more ← rawSegmentsAux text bp rest
    pure (a :: more)

/-- The raw (unstripped) line slices determined by a breaklist. -/
def rawSegments (text : List Char) (breaklist : List Nat) :
    Option (List (List Char)) :=
  rawSegmentsAux text 0 breaklist

/-! ## `Graph` (src/elements/graph.rs)

Metric values are modelled as `ℚ` (finite, NaN-free `f32`); the infinite fold
seeds of `min`/`max` live in `FExt`. -/

/-- The clamp `Range` of a `Graph` (src/elements/graph.rs, lines 4–8). -/
structure GRange where
  min : Option ℚ
  max : Option ℚ
deriving DecidableEq

/-- Rust `f32::clamp(mn, mx)` for finite values (`assert!(mn <= mx)` holds in
every use below). -/
def rustClamp (v mn mx : ℚ) : ℚ :=
  if v < mn then mn else if v > mx then mx else v

/-- `Range::clamp` (src/elements/graph.rs, lines 11–18). -/
def GRange.clamp (r : GRange) (v : ℚ) : ℚ :=
  match r.min, r.max with
  | none, none => v
  | none, some mx => Min.min v mx
  | some mn, none => Max.max v mn
  | some mn, some mx => rustClamp v mn mx

/-- `Graph`: a `VecDeque<f32>` (front of the list = front of the deque)
plus the clamp range. -/
structure Graph where
  values : List ℚ
  range : GRange
deriving DecidableEq

/-- `Graph::new(size)`: `size` entries initialised to `0.0`, no bounds. -/
def Graph.new (size : Nat) : Graph :=
  ⟨List.replicate size 0, ⟨none, none⟩⟩

/-- `Graph::with_min`. -/
def Graph.with_min (g : Graph) (mn : ℚ) : Graph :=
  { g with range := { g.range with min := some mn } }

/-- `Graph::with_max`. -/
def Graph.with_max (g : Graph) (mx : ℚ) : Graph :=
  { g with range := { g.range with max := some mx } }

/-- `Graph::push`: `truncate(len.saturating_sub(1))` then `push_front`
(`Nat` subtraction is saturating, and `List.take` models `truncate`). -/
def Graph.push (g : Graph) (v : ℚ) : Graph :=
  { g with values := v :: g.values.take (g.values.length - 1) }

/-- `Graph::len`. -/
def Graph.len (g : Graph) : Nat := g.values.length

/-- `Graph::iter`, collected: every stored value clamped at read time. -/
def Graph.iterList (g : Graph) : List ℚ := g.values.map g.range.clamp

/-- A finite sequence of `push` calls, oldest first. -/
def Graph.pushAll (g : Graph) (vs : List ℚ) : Graph :=
  vs.foldl Graph.push g

/-- `f32` extended with the two infinities (NaN-free). -/
inductive FExt where
  | inf : FExt
  | ninf : FExt
  | fin : ℚ → FExt
deriving DecidableEq

/-- The `≤` test backing `f32::min` / `f32::max` on NaN-free values. -/
def FExt.fle : FExt → FExt → Bool
  | .ninf, _ => true
  | _, .inf => true
  | .inf, _ => false
  | _, .ninf => false
  | .fin a, .fin b => a ≤ b

/-- `f32::min` on NaN-free values. -/
def fmin (a b : FExt) : FExt := if a.fle b then a else b

/-- `f32::max` on NaN-free values. -/
def fmax (a b : FExt) : FExt := if a.fle b then b else a

/-- `Graph::min` (src/elements/graph.rs, lines 70–78): `0.0` when empty,
else the configured static bound, else a fold of `f32::min` seeded with
`f32::INFINITY` over the clamped iteration. -/
def Graph.fmin (g : Graph) : FExt :=
  if g.values.length = 0 then .fin 0
  else
    match g.range.min with
    | some mn => .fin mn
    | none => g.iterList.foldl (fun acc v => Gemininini.fmin acc (.fin v)) .inf

/-- `Graph::max` (src/elements/graph.rs, lines 80–88). -/
def Graph.fmax (g : Graph) : FExt :=
  if g.values.length = 0 then .fin 0
  else
    match g.range.max with
    | some mx => .fin mx
    | none =>
      g.iterList.foldl (fun acc v => Gemininini.fmax acc (.fin v)) .ninf

/-! ## `state.rs`: compositor, blitter, greedy word wrapper -/

/-- A 4-byte RGBA color value (`config::Pixel = [u8; 4]`); the four bytes are
opaque payload for the claims below. -/
structure Pixel where
  b0 : Nat
  b1 : Nat
  b2 : Nat
  b3 : Nat
deriving DecidableEq

/-- `Block` (src/state.rs, lines 24–27): a row-major pixel grid. -/
structure Block where
  height : Nat
  pixels : List Pixel
deriving DecidableEq

/-- `Block::width`: `pixels.len() / height` (integer division; Rust panics
when `height = 0`, so the theorems below assume `0 < height`). -/
def Block.width (b : Block) : Nat := b.pixels.length / b.height

/-- `slice::chunks_exact(w)`: the `⌊len / w⌋` full chunks of size `w`, the
remainder dropped.  (`rows()` guards `w = 0` before calling it.) -/
def chunksExact {α : Type} (w : Nat) (l : List α) : List (List α) :=
  (List.range (l.length / w)).map (fun i => (l.drop (i * w)).take w)

/-- `Block::rows` (src/state.rs, lines 34–40). -/
def Block.rows (b : Block) : Option (List (List Pixel)) :=
  if b.width = 0 then none
  else some (chunksExact b.width b.pixels)

/-- The destination of `pixels::Pixels`: a frame of `width`-pixel rows.  The
Rust frame is a byte buffer; every offset and length in
`Block::draw_onto_pixels` is a multiple of `PIXEL_SIZE = 4`, so the model
works at pixel granularity with the byte index divided by 4. -/
structure Framebuffer where
  width : Nat
  frame : List Pixel
deriving DecidableEq

/-- One `copy_from_slice` of a row into `frame[idx..idx + row.len()]`;
`none` models the Rust panic when the range overruns the frame. -/
def writeRow (fb : Framebuffer) (idx : Nat) (row : List Pixel) :
    Option Framebuffer :=
  if idx + row.length ≤ fb.frame.length then
    some { fb with
           frame := fb.frame.take idx ++ row ++
             fb.frame.drop (idx + row.length) }
  else none

/-- The `for (y, row) in rows.enumerate()` loop of `draw_onto_pixels`. -/
def drawRowsAux (start_y : Nat) :
    List (List Pixel) → Nat → Framebuffer → Option Framebuffer
  | [], _, fb => some fb
  | row :: rest, y, fb => do
    let fb1 ← writeRow fb ((start_y + y) * fb.width) row
    drawRowsAux start_y rest (y + 1) fb1

/-- `Block::draw_onto_pixels` (src/state.rs, lines 42–51). -/
def Block.draw_onto_pixels (b : Block) (fb : Framebuffer) (start_y : Nat) :
    Option Framebuffer :=
  match b.rows with
  | none => some fb
  | some rows => drawRowsAux start_y rows 0 fb

/-- The glyph sequence of a line:
`self.chars().flat_map(|ch| state.font.glyph(ch))`. -/
def strGlyphs (font : Font) (s : List Char) : List Glyph :=
  s.filterMap font.glyph

/-- `<&str as Draw>::width` (src/state.rs, lines 65–68): the sum of the glyph
widths of the characters that have a glyph. -/
def strWidth (font : Font) (s : List Char) : Nat :=
  ((strGlyphs font s).map Glyph.width).sum

/-- `<&str as Draw>::draw` (src/state.rs, lines 70–89).  The buffer is
initialised with `state.background` (notably not the `background`
parameter); each glyph's mask is stencilled in with `foreground` /
`background` and the cursor advances by the glyph width.  `List.set` ignores
an out-of-range index where Rust would panic; the theorems below depend only
on the buffer length, which `List.set` preserves exactly. -/
def drawGlyphRow (fg bg : Pixel) (width x0 : Nat) (px : List Pixel)
    (yrow : Nat × List Bool) : List Pixel :=
  (yrow.2.enum).foldl
    (fun px xcell =>
      px.set (yrow.1 * width + (x0 + xcell.1))
        (if xcell.2 then fg else bg))
    px

def drawGlyph (fg bg : Pixel) (width : Nat) (acc : List Pixel × Nat)
    (g : Glyph) : List Pixel × Nat :=
  ((g.rows.enum).foldl (drawGlyphRow fg bg width acc.2) acc.1,
    acc.2 + g.width)

def strDraw (font : Font) (stateBg fg bg : Pixel) (s : List Char) : Block :=
  let glyphs := strGlyphs font s
  let width := (glyphs.map Glyph.width).sum
  let height := font.height
  let init := List.replicate (height * width) stateBg
  ⟨height, (glyphs.foldl (drawGlyph fg bg width) (init, 0)).1⟩

/-- `str::split_whitespace`: whitespace-delimited words, empties discarded.
`acc` holds the reversed current word. -/
def splitWhitespaceAux : List Char → List Char → List (List Char)
  | [], acc => if acc.isEmpty then [] else [acc.reverse]
  | c :: cs, acc =>
    if rustIsWhitespace c then
      if acc.isEmpty then splitWhitespaceAux cs []
      else acc.reverse :: splitWhitespaceAux cs []
    else splitWhitespaceAux cs (c :: acc)

/-- `str::split_whitespace`, collected. -/
def splitWhitespace (s : List Char) : List (List Char) :=
  splitWhitespaceAux s []

/-- `[&str]::join(" ")`. -/
def joinWords (ws : List (List Char)) : List Char :=
  List.intercalate [' '] ws

/-- The inner accumulation loop of `State::prepare_lines`
(src/state.rs, lines 126–131): while there is a next word and the rendered
width of `s` is below the window width, append `words[index]` and a space.
`remaining` is `words[index..]`; returns the final `index` and `s`. -/
def fillLoop (font : Font) (winWidth : Nat) :
    List (List Char) → Nat → List Char → Nat × List Char
  | [], index, s => (index, s)
  | w :: rest, index, s =>
    if strWidth font s < winWidth then
      fillLoop font winWidth rest (index + 1) (s ++ w ++ [' '])
    else (index, s)

/-- One iteration of the outer `while let Some(line) = deque.pop_front()`
loop of `State::prepare_lines` (src/state.rs, lines 121–141): returns the
line pushed to `content_lines` and the line pushed back to the front of the
deque, if any.  `none` models the panic of `words.get(0..index - 1)` when
`index = 0` (underflow in debug builds, a failed `unwrap` in release
builds). -/
def prepareLine (font : Font) (winWidth : Nat) (line : List Char) :
    Option (List Char × Option (List Char)) :=
  let words := splitWhitespace line
  let res := fillLoop font winWidth words 0 []
  let index := res.1
  if words.length > index then
    if index = 0 then none
    else
      some (joinWords (words.take (index - 1)),
            some (joinWords (words.drop (index - 1))))
  else some (joinWords (words.take index), none)

/-- `State::prepare_lines` on a deque of logical lines, with explicit fuel:
`none` when the fuel runs out before the deque empties (or a panic occurs),
`some` the collected `content_lines` otherwise. -/
def prepareLinesFuel (font : Font) (winWidth : Nat) :
    Nat → List (List Char) → Option (List (List Char))
  | _, [] => some []
  | 0, _ :: _ => none
  | fuel + 1, line :: rest => do
    let r ← prepareLine font winWidth line
    let newDeque := match r.2 with
      | some req => req :: rest
      | none => rest
    let out ← prepareLinesFuel font winWidth fuel newDeque
    pure (r.1 :: out)

/-- `Rust str::lines` on the page content: split at `'\n'`, dropping one
trailing `'\r'` per line; a trailing final newline yields no extra empty
line.  (Only newline-free inputs are used below.) -/
def rustLines (s : List Char) : List (List Char) :=
  if s.isEmpty then [] else
  let raw := s.splitOn '\n'
  let raw := if raw.getLast? = some [] ∧ raw.length > 1 then raw.dropLast
    else raw
  raw.map (fun l => if l.getLast? = some '\r' then l.dropLast else l)

/-- `State::prepare_lines` (src/state.rs, lines 116–142), fuelled: split the
page content into logical lines and run the re-flow loop. -/
def prepareLines (font : Font) (winWidth : Nat) (fuel : Nat)
    (pageContent : List Char) : Option (List (List Char)) :=
  prepareLinesFuel font winWidth fuel (rustLines pageContent)

/-- A font giving every character a glyph of width 10 (the "monospace glyph
width of 10 for every character" of the spec's scenario). -/
def monoFont10 : Font := ⟨fun _ => some ⟨10, []⟩, 1⟩

/-! ## Theorems -/

theorem Graph.push_len (g : Graph) (v : ℚ) :
    (g.push v).len = Max.max 1 g.len := by
  simp only [Graph.push, Graph.len, List.length_cons, List.length_take]
  omega

theorem Graph.pushAll_len (g : Graph) (vs : List ℚ) :
    (g.pushAll vs).len = if vs.isEmpty then g.len else Max.max 1 g.len := by
  induction vs generalizing g with
  | nil => simp [Graph.pushAll]
  | cons v vs ih =>
    have h1 : g.pushAll (v :: vs) = (g.push v).pushAll vs := rfl
    rw [h1, ih, Graph.push_len]
    cases vs with
    | nil => simp
    | cons w ws =>
      simp only [List.isEmpty_cons, if_neg Bool.false_ne_true]
      omega

/-- C1: the claim that for every text, `max_width` and font the `BreakList`
produced by `WrappedText::rewrap` is strictly increasing fails on the code:
`last_whitespace` is never reset after a width break, so the text
`"ab cd ef"` with glyph width 10 everywhere and `max_width = 25` produces
the breaklist `[2, 2, 5, 5, 8]`, which repeats offsets 2 and 5. -/
theorem c1_breaklist_not_strictly_increasing :
    rewrap "ab cd ef".toList (some 25) monoFont10 = [2, 2, 5, 5, 8] ∧
    ¬ List.Chain' (· < ·) (rewrap "ab cd ef".toList (some 25) monoFont10) := by
  have h : rewrap "ab cd ef".toList (some 25) monoFont10 = [2, 2, 5, 5, 8] :=
    by decide
  refine ⟨h, ?_⟩
  rw [h]
  intro hc
  exact absurd (List.chain'_cons.mp hc).1 (lt_irrefl 2)

/-- C4: on the spec's scenario (text `"ab cd ef"`, every glyph 10 pixels
wide, `max_width = 25`) the code does not produce the expected breaklist
`[2, 5, 8]` and lines `["ab", "cd", "ef"]`: duplicated break offsets yield
`[2, 2, 5, 5, 8]` and the lines `["ab", "", "cd", "", "ef"]`. -/
theorem c4_scenario_diverges :
    rewrap "ab cd ef".toList (some 25) monoFont10 = [2, 2, 5, 5, 8] ∧
    rewrap "ab cd ef".toList (some 25) monoFont10 ≠ [2, 5, 8] ∧
    linesOf "ab cd ef".toList (rewrap "ab cd ef".toList (some 25) monoFont10)
      = some ["ab".toList, [], "cd".toList, [], "ef".toList] ∧
    linesOf "ab cd ef".toList (rewrap "ab cd ef".toList (some 25) monoFont10)
      ≠ some ["ab".toList, "cd".toList, "ef".toList] := by
  refine ⟨by decide, by decide, by decide, by decide⟩

/-- C3 (counterexample): pushing onto a capacity-zero `Graph` grows it to
length 1, so `len() = capacity` fails in the capacity-zero case:
`truncate(0.saturating_sub(1))` is a no-op and `push_front` then inserts. -/
theorem c3_capacity_zero_counterexample :
    ((Graph.new 0).push 1).len = 1 ∧ ¬ ((Graph.new 0).push 1).len = 0 := by
  constructor
  · decide
  · decide

/-- C3 (amended): after `Graph::new(c)` and any finite sequence of pushes,
`len()` equals `c` whenever `c ≥ 1` (and with no pushes at all); on a
capacity-zero graph a nonempty sequence of pushes leaves length 1. -/
theorem c3_len_after_pushes (c : Nat) (vs : List ℚ) :
    ((Graph.new c).pushAll vs).len =
      if vs.isEmpty then c else Max.max 1 c := by
  rw [Graph.pushAll_len]
  simp [Graph.new, Graph.len]

/-- C3 witness: instantiating the amended claim at capacity 2 with three
pushes (length stays 2) — the hypotheses are the implicit `if` discharge. -/
theorem c3_len_after_pushes_witness :
    ((Graph.new 2).pushAll [5, 6, 7]).len = 2 := by
  have h := c3_len_after_pushes 2 [5, 6, 7]
  simpa using h

theorem fold_fmin_from_fin (l : List ℚ) (a : ℚ) :
    l.foldl (fun acc v => fmin acc (.fin v)) (.fin a) =
      .fin (l.foldl Min.min a) := by
  induction l generalizing a with
  | nil => rfl
  | cons b l ih =>
    have h : fmin (.fin a) (.fin b) = .fin (Min.min a b) := by
      by_cases hab : a ≤ b
      · simp [fmin, FExt.fle, hab, min_def]
      · simp [fmin, FExt.fle, hab, min_def]
    simp only [List.foldl_cons, h, ih]

theorem fold_fmax_from_fin (l : List ℚ) (a : ℚ) :
    l.foldl (fun acc v => fmax acc (.fin v)) (.fin a) =
      .fin (l.foldl Max.max a) := by
  induction l generalizing a with
  | nil => rfl
  | cons b l ih =>
    have h : fmax (.fin a) (.fin b) = .fin (Max.max a b) := by
      by_cases hab : a ≤ b
      · simp [fmax, FExt.fle, hab, max_def]
      · simp [fmax, FExt.fle, hab, max_def]
    simp only [List.foldl_cons, h, ih]

theorem foldl_min_mem (l : List ℚ) : ∀ a, l.foldl Min.min a ∈ a :: l := by
  induction l with
  | nil => intro a; simp
  | cons b l ih =>
    intro a
    simp only [List.foldl_cons]
    rcases List.mem_cons.mp (ih (Min.min a b)) with h1 | h1
    · rcases min_choice a b with hc | hc
      · rw [h1, hc]; exact List.mem_cons_self _ _
      · rw [h1, hc]
        exact List.mem_cons_of_mem _ (List.mem_cons_self _ _)
    · exact List.mem_cons_of_mem _ (List.mem_cons_of_mem _ h1)

theorem foldl_min_le (l : List ℚ) :
    ∀ a, ∀ x ∈ a :: l, l.foldl Min.min a ≤ x := by
  induction l with
  | nil =>
    intro a x hx
    rw [List.mem_singleton.mp hx]
    exact le_refl _
  | cons b l ih =>
    intro a x hx
    simp only [List.foldl_cons]
    have hseed : l.foldl Min.min (Min.min a b) ≤ Min.min a b :=
      ih (Min.min a b) (Min.min a b) (List.mem_cons_self _ _)
    rcases List.mem_cons.mp hx with h1 | h1
    · exact h1 ▸ hseed.trans (min_le_left a b)
    · rcases List.mem_cons.mp h1 with h2 | h2
      · exact h2 ▸ hseed.trans (min_le_right a b)
      · exact ih (Min.min a b) x (List.mem_cons_of_mem _ h2)

theorem foldl_max_mem (l : List ℚ) : ∀ a, l.foldl Max.max a ∈ a :: l := by
  induction l with
  | nil => intro a; simp
  | cons b l ih =>
    intro a
    simp only [List.foldl_cons]
    rcases List.mem_cons.mp (ih (Max.max a b)) with h1 | h1
    · rcases max_choice a b with hc | hc
      · rw [h1, hc]; exact List.mem_cons_self _ _
      · rw [h1, hc]
        exact List.mem_cons_of_mem _ (List.mem_cons_self _ _)
    · exact List.mem_cons_of_mem _ (List.mem_cons_of_mem _ h1)

theorem foldl_le_max (l : List ℚ) :
    ∀ a, ∀ x ∈ a :: l, x ≤ l.foldl Max.max a := by
  induction l with
  | nil =>
    intro a x hx
    rw [List.mem_singleton.mp hx]
    exact le_refl _
  | cons b l ih =>
    intro a x hx
    simp only [List.foldl_cons]
    have hseed : Max.max a b ≤ l.foldl Max.max (Max.max a b) :=
      ih (Max.max a b) (Max.max a b) (List.mem_cons_self _ _)
    rcases List.mem_cons.mp hx with h1 | h1
    · exact h1 ▸ (le_max_left a b).trans hseed
    · rcases List.mem_cons.mp h1 with h2 | h2
      · exact h2 ▸ (le_max_right a b).trans hseed
      · exact ih (Max.max a b) x (List.mem_cons_of_mem _ h2)

/-- C9: `Graph::min`/`Graph::max` return `0.0` on an empty (capacity-zero)
buffer; on a nonempty buffer a configured static bound is returned directly,
and without a configured bound the fold over the clamped iteration computes
the true minimum (resp. maximum). -/
theorem c9_min_max_spec (g : Graph) :
    (g.values = [] → g.fmin = .fin 0 ∧ g.fmax = .fin 0) ∧
    (g.values ≠ [] → ∀ mn, g.range.min = some mn → g.fmin = .fin mn) ∧
    (g.values ≠ [] → ∀ mx, g.range.max = some mx → g.fmax = .fin mx) ∧
    (g.values ≠ [] → g.range.min = none →
      ∃ m, g.fmin = .fin m ∧ m ∈ g.iterList ∧ ∀ x ∈ g.iterList, m ≤ x) ∧
    (g.values ≠ [] → g.range.max = none →
      ∃ m, g.fmax = .fin m ∧ m ∈ g.iterList ∧ ∀ x ∈ g.iterList, x ≤ m) := by
  have hlen : g.values = [] ↔ g.values.length = 0 := List.length_eq_zero.symm
  refine ⟨?_, ?_, ?_, ?_, ?_⟩
  · intro h
    constructor <;> simp [Graph.fmin, Graph.fmax, hlen.mp h]
  · intro h mn hmn
    have hne : ¬ g.values.length = 0 := fun hh => h (hlen.mpr hh)
    simp [Graph.fmin, hne, hmn]
  · intro h mx hmx
    have hne : ¬ g.values.length = 0 := fun hh => h (hlen.mpr hh)
    simp [Graph.fmax, hne, hmx]
  · intro h hmn
    have hit : g.iterList ≠ [] := by
      simpa [Graph.iterList] using h
    obtain ⟨a, t, hat⟩ := List.exists_cons_of_ne_nil hit
    refine ⟨t.foldl Min.min a, ?_, ?_, ?_⟩
    · have hstep : fmin .inf (.fin a) = .fin a := rfl
      simp only [Graph.fmin, hmn, hat, List.foldl_cons, hstep,
        fold_fmin_from_fin, if_neg (fun hh => h (hlen.mpr hh))]
    · exact hat ▸ foldl_min_mem t a
    · intro x hx
      exact foldl_min_le t a x (hat ▸ hx)
  · intro h hmx
    have hit : g.iterList ≠ [] := by
      simpa [Graph.iterList] using h
    obtain ⟨a, t, hat⟩ := List.exists_cons_of_ne_nil hit
    refine ⟨t.foldl Max.max a, ?_, ?_, ?_⟩
    · have hstep : fmax .ninf (.fin a) = .fin a := rfl
      simp only [Graph.fmax, hmx, hat, List.foldl_cons, hstep,
        fold_fmax_from_fin, if_neg (fun hh => h (hlen.mpr hh))]
    · exact hat ▸ foldl_max_mem t a
    · intro x hx
      exact foldl_le_max t a x (hat ▸ hx)

/-- C9 witness: the capacity-zero branch at a graph with both bounds set,
and the no-bound branch at the stored values `[3, 5]`. -/
theorem c9_min_max_spec_witness :
    ((Graph.mk [] ⟨some 1, some 2⟩).fmin = .fin 0 ∧
      (Graph.mk [] ⟨some 1, some 2⟩).fmax = .fin 0) ∧
    (∃ m, (Graph.mk [3, 5] ⟨none, none⟩).fmin = .fin m ∧
      m ∈ (Graph.mk [3, 5] ⟨none, none⟩).iterList ∧
      ∀ x ∈ (Graph.mk [3, 5] ⟨none, none⟩).iterList, m ≤ x) := by
  constructor
  · exact (c9_min_max_spec _).1 rfl
  · exact (c9_min_max_spec (Graph.mk [3, 5] ⟨none, none⟩)).2.2.2.1
      (by decide) rfl

theorem utf8Len_pos (c : Char) : 1 ≤ utf8Len c := by
  unfold utf8Len
  split
  · exact le_refl 1
  · split
    · omega
    · split <;> omega

theorem byteLen_nil : byteLen [] = 0 := rfl

theorem byteLen_cons (c : Char) (s : List Char) :
    byteLen (c :: s) = utf8Len c + byteLen s := by
  simp [byteLen]

theorem byteLen_append (a b : List Char) :
    byteLen (a ++ b) = byteLen a + byteLen b := by
  simp [byteLen]

theorem isBoundary_zero (s : List Char) : IsBoundary s 0 :=
  ⟨[], s, rfl, rfl⟩

theorem isBoundary_byteLen (s : List Char) : IsBoundary s (byteLen s) :=
  ⟨s, [], by simp, rfl⟩

theorem byteLen_le_of_boundary {s : List Char} {o : Nat}
    (h : IsBoundary s o) : o ≤ byteLen s := by
  obtain ⟨pre, suf, hs, ho⟩ := h
  rw [hs, byteLen_append, ho]
  omega

theorem charIndicesAux_boundary (text : List Char) :
    ∀ (s pre : List Char), pre ++ s = text →
      ∀ p ∈ charIndicesAux (byteLen pre) s, IsBoundary text p.1 := by
  intro s
  induction s with
  | nil =>
    intro pre _ p hp
    simp [charIndicesAux] at hp
  | cons c s ih =>
    intro pre htext p hp
    rcases List.mem_cons.mp hp with h1 | h1
    · exact ⟨pre, c :: s, htext.symm, by rw [h1]⟩
    · have hlen : byteLen pre + utf8Len c = byteLen (pre ++ [c]) := by
        rw [byteLen_append, byteLen_cons, byteLen_nil]
        omega
      have htext' : (pre ++ [c]) ++ s = text := by
        simpa using htext
      exact ih (pre ++ [c]) htext' p (hlen ▸ h1)

/-- The loop invariant of the `rewrap` scan: the breaklist is sorted, every
committed offset is a character boundary not past the current scan position
`n`, and a recorded `last_whitespace` is a boundary at or before `n` that no
committed offset exceeds. -/
def WrapInv (text : List Char) (st : WrapState) (n : Nat) : Prop :=
  st.breaklist.Pairwise (· ≤ ·) ∧
  (∀ b ∈ st.breaklist, IsBoundary text b ∧ b ≤ n) ∧
  (∀ w, st.last_whitespace = some w →
    IsBoundary text w ∧ w ≤ n ∧ ∀ b ∈ st.breaklist, b ≤ w)

theorem wrapInv_mono {text : List Char} {st : WrapState} {n m : Nat}
    (h : WrapInv text st n) (hnm : n ≤ m) : WrapInv text st m := by
  obtain ⟨h1, h2, h3⟩ := h
  refine ⟨h1, fun b hb => ⟨(h2 b hb).1, (h2 b hb).2.trans hnm⟩,
    fun w hw => ⟨(h3 w hw).1, (h3 w hw).2.1.trans hnm, (h3 w hw).2.2⟩⟩

theorem wrapInv_push {text : List Char} {st : WrapState} {n b : Nat}
    (h : WrapInv text st n) (hb : IsBoundary text b) (hbn : b ≤ n)
    (hge : ∀ a ∈ st.breaklist, a ≤ b) :
    (st.breaklist ++ [b]).Pairwise (· ≤ ·) ∧
    ∀ a ∈ st.breaklist ++ [b], IsBoundary text a ∧ a ≤ n := by
  obtain ⟨h1, h2, _⟩ := h
  constructor
  · rw [List.pairwise_append]
    exact ⟨h1, List.pairwise_singleton _ _,
      fun a ha b' hb' => (List.mem_singleton.mp hb') ▸ hge a ha⟩
  · intro a ha
    rcases List.mem_append.mp ha with h4 | h4
    · exact h2 a h4
    · rw [List.mem_singleton.mp h4]
      exact ⟨hb, hbn⟩

theorem wrapInv_step {text : List Char} (mw : Option Nat) (font : Font)
    {st : WrapState} {idx : Nat} (c : Char)
    (hInv : WrapInv text st idx) (hb : IsBoundary text idx) (u : Nat)
    (hu : 1 ≤ u) :
    WrapInv text (rewrapStep mw font st (idx, c)) (idx + u) := by
  unfold rewrapStep
  by_cases hnl : c = '\n'
  · simp only [hnl, if_pos rfl]
    obtain ⟨hp, hm⟩ :=
      wrapInv_push hInv hb (le_refl idx) (fun a ha => (hInv.2.1 a ha).2)
    exact ⟨hp, fun b hb' => ⟨(hm b hb').1, (hm b hb').2.trans (by omega)⟩,
      fun w hw => by simp at hw⟩
  · simp only [if_neg hnl]
    match mw with
    | none => exact wrapInv_mono hInv (by omega)
    | some mw =>
      simp only []
      set st1 := if rustIsWhitespace c then
          { st with last_whitespace := some idx, wordwidth := 0 }
        else st with hst1
      have hInv1 : WrapInv text st1 idx := by
        rw [hst1]
        by_cases hws : rustIsWhitespace c
        · simp only [if_pos hws]
          obtain ⟨h1, h2, _⟩ := hInv
          exact ⟨h1, h2, fun w hw => by
            simp only [Option.some.injEq] at hw
            exact ⟨hw ▸ hb, hw ▸ le_refl idx,
              fun b hbmem => hw ▸ (h2 b hbmem).2⟩⟩
        · simp only [if_neg hws]
          exact hInv
      by_cases hov :
          st1.scrapwidth + (font.glyph c).elim 0 Glyph.width > mw
      · simp only [if_pos hov]
        match hlw : st1.last_whitespace with
        | some br =>
          have h3 := hInv1.2.2 br hlw
          obtain ⟨hp, hm⟩ := wrapInv_push hInv1 h3.1 h3.2.1 h3.2.2
          refine ⟨hp,
            fun b hb' => ⟨(hm b hb').1, (hm b hb').2.trans (by omega)⟩,
            fun w hw => ?_⟩
          simp only [Option.some.injEq] at hw
          refine ⟨hw ▸ h3.1, hw ▸ h3.2.1.trans (by omega), ?_⟩
          intro b hb'
          rcases List.mem_append.mp hb' with h4 | h4
          · exact hw ▸ h3.2.2 b h4
          · rw [List.mem_singleton.mp h4, hw]
        | none =>
          obtain ⟨hp, hm⟩ := wrapInv_push hInv1 hb (le_refl idx)
            (fun a ha => (hInv1.2.1 a ha).2)
          exact ⟨hp,
            fun b hb' => ⟨(hm b hb').1, (hm b hb').2.trans (by omega)⟩,
            fun w hw => by simp at hw⟩
      · simp only [if_neg hov]
        exact wrapInv_mono hInv1 (by omega)

theorem wrapInv_fold {text : List Char} (mw : Option Nat) (font : Font) :
    ∀ (s pre : List Char) (st : WrapState), pre ++ s = text →
      WrapInv text st (byteLen pre) →
      WrapInv text
        ((charIndicesAux (byteLen pre) s).foldl (rewrapStep mw font) st)
        (byteLen text) := by
  intro s
  induction s with
  | nil =>
    intro pre st htext hInv
    have : byteLen pre = byteLen text := by rw [← htext]; simp
    simpa [charIndicesAux, this] using hInv
  | cons c s ih =>
    intro pre st htext hInv
    have hb : IsBoundary text (byteLen pre) := ⟨pre, c :: s, htext.symm, rfl⟩
    have hstep := @wrapInv_step text mw font st (byteLen pre) c hInv hb
      (utf8Len c) (utf8Len_pos c)
    have hlen : byteLen pre + utf8Len c = byteLen (pre ++ [c]) := by
      rw [byteLen_append, byteLen_cons, byteLen_nil]
      omega
    have htext' : (pre ++ [c]) ++ s = text := by simpa using htext
    have := ih (pre ++ [c]) (rewrapStep mw font st (byteLen pre, c)) htext'
      (hlen ▸ hstep)
    simpa [charIndicesAux, hlen] using this

/-- The structural facts about every `rewrap` result: the breaklist is
non-decreasing, every offset is a UTF-8 boundary no larger than the byte
length, the list is nonempty, and its last element is the byte length. -/
theorem rewrap_props (text : List Char) (mw : Option Nat) (font : Font) :
    (rewrap text mw font).Pairwise (· ≤ ·) ∧
    (∀ b ∈ rewrap text mw font, IsBoundary text b ∧ b ≤ byteLen text) ∧
    rewrap text mw font ≠ [] ∧
    (rewrap text mw font).getLast? = some (byteLen text) := by
  have h0 : WrapInv text ⟨0, 0, none, []⟩ (byteLen ([] : List Char)) := by
    refine ⟨List.Pairwise.nil, fun b hb => by simp at hb,
      fun w hw => by simp at hw⟩
  have hfold := @wrapInv_fold text mw font text [] ⟨0, 0, none, []⟩
    (by simp) h0
  set stf := (charIndicesAux (byteLen ([] : List Char)) text).foldl
    (rewrapStep mw font) ⟨0, 0, none, []⟩ with hstf
  have hre : rewrap text mw font = stf.breaklist ++ [byteLen text] := by
    rw [hstf]
    rfl
  obtain ⟨h1, h2, _⟩ := hfold
  refine ⟨?_, ?_, ?_, ?_⟩
  · rw [hre, List.pairwise_append]
    exact ⟨h1, List.pairwise_singleton _ _, fun a ha b hb =>
      (List.mem_singleton.mp hb) ▸ (h2 a ha).2⟩
  · intro b hb
    rw [hre] at hb
    rcases List.mem_append.mp hb with h4 | h4
    · exact ⟨(h2 b h4).1, (h2 b h4).2⟩
    · rw [List.mem_singleton.mp h4]
      exact ⟨isBoundary_byteLen text, le_refl _⟩
  · rw [hre]
    simp
  · rw [hre, List.getLast?_concat]

/-- C6: every offset produced by `rewrap` is a valid UTF-8 character
boundary of the text, the final offset equals the text's byte length, the
breaklist is nonempty, and the empty text yields exactly one empty line. -/
theorem c6_boundary_validity (text : List Char) (mw : Option Nat)
    (font : Font) :
    (∀ o ∈ rewrap text mw font, IsBoundary text o) ∧
    (rewrap text mw font).getLast? = some (byteLen text) ∧
    rewrap text mw font ≠ [] ∧
    rewrap [] mw font = [0] ∧
    linesOf [] (rewrap [] mw font) = some [[]] := by
  obtain ⟨_, h2, h3, h4⟩ := rewrap_props text mw font
  exact ⟨fun o ho => (h2 o ho).1, h4, h3, rfl, rfl⟩

theorem dropBytes_cons_pos (c : Char) (cs : List Char) {n : Nat}
    (hn : 0 < n) :
    dropBytes (c :: cs) n =
      if utf8Len c ≤ n then dropBytes cs (n - utf8Len c) else none := by
  match n, hn with
  | m + 1, _ => rfl

theorem takeBytes_cons_pos (c : Char) (cs : List Char) {n : Nat}
    (hn : 0 < n) :
    takeBytes (c :: cs) n =
      if utf8Len c ≤ n then (takeBytes cs (n - utf8Len c)).map (c :: ·)
      else none := by
  match n, hn with
  | m + 1, _ => rfl

theorem dropBytes_zero (s : List Char) : dropBytes s 0 = some s := by
  cases s <;> rfl

theorem takeBytes_zero (s : List Char) : takeBytes s 0 = some [] := by
  cases s <;> rfl

theorem dropBytes_exact (pre suf : List Char) :
    dropBytes (pre ++ suf) (byteLen pre) = some suf := by
  induction pre with
  | nil => rw [List.nil_append, byteLen_nil, dropBytes_zero]
  | cons c pre ih =>
    have hpos : 0 < byteLen (c :: pre) := by
      rw [byteLen_cons]
      have := utf8Len_pos c
      omega
    rw [List.cons_append, dropBytes_cons_pos _ _ hpos, byteLen_cons,
      if_pos (by omega)]
    have : utf8Len c + byteLen pre - utf8Len c = byteLen pre := by omega
    rw [this, ih]

theorem takeBytes_exact (mid suf : List Char) :
    takeBytes (mid ++ suf) (byteLen mid) = some mid := by
  induction mid with
  | nil => rw [List.nil_append, byteLen_nil, takeBytes_zero]
  | cons c mid ih =>
    have hpos : 0 < byteLen (c :: mid) := by
      rw [byteLen_cons]
      have := utf8Len_pos c
      omega
    rw [List.cons_append, takeBytes_cons_pos _ _ hpos, byteLen_cons,
      if_pos (by omega)]
    have : utf8Len c + byteLen mid - utf8Len c = byteLen mid := by omega
    rw [this, ih]
    rfl

theorem byteSlice_decomp (text p mid s : List Char)
    (htext : text = p ++ mid ++ s) :
    byteSlice text (byteLen p) (byteLen p + byteLen mid) = some mid := by
  rw [byteSlice, if_pos (by omega), htext, List.append_assoc,
    dropBytes_exact, Option.some_bind]
  have : byteLen p + byteLen mid - byteLen p = byteLen mid := by omega
  rw [this, takeBytes_exact]

theorem append_eq_append_of_byteLen_le :
    ∀ (p1 : List Char) (p2 s1 s2 : List Char), p1 ++ s1 = p2 ++ s2 →
      byteLen p1 ≤ byteLen p2 → ∃ mid, p2 = p1 ++ mid ∧ s1 = mid ++ s2 := by
  intro p1
  induction p1 with
  | nil =>
    intro p2 s1 s2 heq _
    exact ⟨p2, rfl, by simpa using heq⟩
  | cons c p1 ih =>
    intro p2 s1 s2 heq hle
    match p2 with
    | [] =>
      exfalso
      rw [byteLen_cons, byteLen_nil] at hle
      have := utf8Len_pos c
      omega
    | d :: p2 =>
      have hcd : c = d := by
        have := congrArg (List.head?) heq
        simpa using this
      subst hcd
      have htail : p1 ++ s1 = p2 ++ s2 := by
        have := congrArg (List.tail) heq
        simpa using this
      have hlen : byteLen p1 ≤ byteLen p2 := by
        rw [byteLen_cons, byteLen_cons] at hle
        omega
      obtain ⟨mid, hmid1, hmid2⟩ := ih p2 s1 s2 htail hlen
      exact ⟨mid, by rw [hmid1, List.cons_append], hmid2⟩

/-- Whether `lines()` drops the first byte of a raw line slice: exactly when
its first character is whitespace. -/
def dropsFirst (seg : List Char) : Bool :=
  match seg with
  | [] => false
  | c :: _ => rustIsWhitespace c

theorem linesAux_total (text : List Char)
    (hws : ∀ c ∈ text, rustIsWhitespace c = true → utf8Len c = 1) :
    ∀ (bl : List Nat) (r : Nat), IsBoundary text r →
      bl.Pairwise (· ≤ ·) →
      (∀ b ∈ bl, IsBoundary text b ∧ r ≤ b) →
      ∃ raws outs, rawSegmentsAux text r bl = some raws ∧
        linesAux text r bl = some outs ∧
        List.Forall₂ (fun seg out =>
          out = if dropsFirst seg then seg.tail else seg) raws outs := by
  intro bl
  induction bl with
  | nil =>
    intro r _ _ _
    exact ⟨[], [], rfl, rfl, List.Forall₂.nil⟩
  | cons bp rest ih =>
    intro r hr hpw hmem
    obtain ⟨p1, s1, htext1, hr1⟩ := hr
    obtain ⟨hbp, hrbp⟩ := hmem bp (List.mem_cons_self _ _)
    obtain ⟨p2, s2, htext2, hbp2⟩ := hbp
    have heq : p1 ++ s1 = p2 ++ s2 := by rw [← htext1, ← htext2]
    obtain ⟨mid, hmid1, hmid2⟩ :=
      append_eq_append_of_byteLen_le p1 p2 s1 s2 heq (by omega)
    have htext3 : text = p1 ++ mid ++ s2 := by
      rw [htext2, hmid1, List.append_assoc]
    have hbp3 : bp = byteLen p1 + byteLen mid := by
      rw [hbp2, hmid1, byteLen_append]
    have hslice : byteSlice text r bp = some mid := by
      rw [hr1, hbp3]
      exact byteSlice_decomp text p1 mid s2 htext3
    have hstrip : stripLeadingWs mid =
        some (if dropsFirst mid then mid.tail else mid) := by
      match mid with
      | [] => rfl
      | c :: cs =>
        by_cases hc : rustIsWhitespace c
        · have hcmem : c ∈ text := by
            rw [htext3]
            exact List.mem_append.mpr (Or.inl
              (List.mem_append.mpr (Or.inr (List.mem_cons_self _ _))))
          have h1 : utf8Len c = 1 := hws c hcmem hc
          simp [stripLeadingWs, hc, h1, dropsFirst]
        · simp [stripLeadingWs, hc, dropsFirst]
    have hbpb : IsBoundary text bp := ⟨p2, s2, htext2, hbp2⟩
    have hpw' : rest.Pairwise (· ≤ ·) := (List.pairwise_cons.mp hpw).2
    have hmem' : ∀ b ∈ rest, IsBoundary text b ∧ bp ≤ b := by
      intro b hb
      exact ⟨(hmem b (List.mem_cons_of_mem _ hb)).1,
        (List.pairwise_cons.mp hpw).1 b hb⟩
    obtain ⟨raws, outs, hraws, houts, hfa⟩ := ih bp hbpb hpw' hmem'
    refine ⟨mid :: raws, (if dropsFirst mid then mid.tail else mid) :: outs,
      ?_, ?_, List.Forall₂.cons rfl hfa⟩
    · simp only [rawSegmentsAux, Option.bind_eq_bind, hslice,
        Option.some_bind, hraws, Option.some_bind]
      rfl
    · simp only [linesAux, Option.bind_eq_bind, hslice, Option.some_bind,
        hstrip, houts, Option.some_bind]
      rfl

/-- C5 (counterexample): `lines()` is not total on every `rewrap` result:
with the text `" b"` (a two-byte no-break space, then `b`) and no
wrapping, the single line starts with a whitespace character of two bytes,
and `&a[1..]` slices inside that character — a panic (`none`). -/
theorem c5_multibyte_whitespace_panics :
    rewrap [Char.ofNat 0xA0, 'b'] none monoFont10 = [3] ∧
    linesOf [Char.ofNat 0xA0, 'b']
      (rewrap [Char.ofNat 0xA0, 'b'] none monoFont10) = none := by
  constructor
  · decide
  · decide

/-- C5 (amended): for every text whose whitespace characters are all
single-byte, `lines()` over a `rewrap` breaklist is total (never panics,
also on empty lines), and each produced line is the raw slice with its first
byte dropped exactly when the slice's first character is whitespace — a
non-whitespace first byte is never dropped. -/
theorem c5_lines_total (text : List Char) (mw : Option Nat) (font : Font)
    (hws : ∀ c ∈ text, rustIsWhitespace c = true → utf8Len c = 1) :
    ∃ raws outs, rawSegments text (rewrap text mw font) = some raws ∧
      linesOf text (rewrap text mw font) = some outs ∧
      List.Forall₂ (fun seg out =>
        out = if dropsFirst seg then seg.tail else seg) raws outs := by
  obtain ⟨h1, h2, _, _⟩ := rewrap_props text mw font
  exact linesAux_total text hws (rewrap text mw font) 0
    (isBoundary_zero text) h1
    (fun b hb => ⟨(h2 b hb).1, Nat.zero_le b⟩)

/-- C5 witness: the amended theorem applied to the text `"a b"` wrapped at
25 pixels with the all-widths-10 font. -/
theorem c5_lines_total_witness :
    ∃ raws outs,
      rawSegments "a b".toList (rewrap "a b".toList (some 25) monoFont10)
        = some raws ∧
      linesOf "a b".toList (rewrap "a b".toList (some 25) monoFont10)
        = some outs ∧
      List.Forall₂ (fun seg out =>
        out = if dropsFirst seg then seg.tail else seg) raws outs := by
  exact c5_lines_total "a b".toList (some 25) monoFont10 (by decide)

theorem foldl_set_length {β : Type} (g : List Pixel → β → List Pixel)
    (hg : ∀ px b, (g px b).length = px.length) :
    ∀ (l : List β) (px : List Pixel), (l.foldl g px).length = px.length := by
  intro l
  induction l with
  | nil => intro px; rfl
  | cons b l ih =>
    intro px
    rw [List.foldl_cons, ih, hg]

theorem drawGlyphRow_length (fg bg : Pixel) (width x0 : Nat)
    (px : List Pixel) (yrow : Nat × List Bool) :
    (drawGlyphRow fg bg width x0 px yrow).length = px.length := by
  unfold drawGlyphRow
  exact foldl_set_length _ (fun px b => px.length_set _ _) _ px

theorem drawGlyph_length (fg bg : Pixel) (width : Nat)
    (acc : List Pixel × Nat) (g : Glyph) :
    ((drawGlyph fg bg width acc g).1).length = acc.1.length := by
  unfold drawGlyph
  exact foldl_set_length _ (fun px b => drawGlyphRow_length fg bg width
    acc.2 px b) _ acc.1

theorem glyphs_fold_length (fg bg : Pixel) (width : Nat) :
    ∀ (gs : List Glyph) (acc : List Pixel × Nat),
      ((gs.foldl (drawGlyph fg bg width) acc).1).length = acc.1.length := by
  intro gs
  induction gs with
  | nil => intro acc; rfl
  | cons g gs ih =>
    intro acc
    rw [List.foldl_cons, ih, drawGlyph_length]

theorem strDraw_pixels_length (font : Font) (stateBg fg bg : Pixel)
    (s : List Char) :
    (strDraw font stateBg fg bg s).pixels.length =
      font.height * strWidth font s := by
  unfold strDraw
  rw [glyphs_fold_length]
  simp [strWidth]

theorem strGlyphs_filter (font : Font) (s : List Char) :
    strGlyphs font (s.filter (fun c => (font.glyph c).isSome)) =
      strGlyphs font s := by
  induction s with
  | nil => rfl
  | cons c s ih =>
    by_cases h : (font.glyph c).isSome
    · obtain ⟨g, hg⟩ := Option.isSome_iff_exists.mp h
      simp [strGlyphs, List.filter_cons, h, List.filterMap_cons, hg]
      simpa [strGlyphs] using ih
    · have hn : font.glyph c = none := Option.not_isSome_iff_eq_none.mp h
      simp [strGlyphs, List.filter_cons, h, List.filterMap_cons, hn]
      simpa [strGlyphs] using ih

/-- C8: the pixel width of the composited `Block` equals the sum of the
glyph widths of the line's characters that have a glyph, and the block is
identical to the one composited from the line with the glyphless characters
removed — they are skipped entirely, occupying zero columns. -/
theorem c8_width_conservation (font : Font) (stateBg fg bg : Pixel)
    (s : List Char) (hh : 0 < font.height) :
    (strDraw font stateBg fg bg s).width = strWidth font s ∧
    strDraw font stateBg fg bg s =
      strDraw font stateBg fg bg
        (s.filter (fun c => (font.glyph c).isSome)) := by
  constructor
  · have hlen := strDraw_pixels_length font stateBg fg bg s
    have hht : (strDraw font stateBg fg bg s).height = font.height := rfl
    rw [Block.width, hlen, hht, Nat.mul_div_cancel_left _ hh]
  · unfold strDraw
    rw [strGlyphs_filter]

/-- C8 witness: width conservation for `"a b"` under the all-widths-10 font
of height 1 (the line's width is 30). -/
theorem c8_width_conservation_witness :
    (strDraw monoFont10 ⟨0, 0, 0, 0⟩ ⟨1, 1, 1, 1⟩ ⟨0, 0, 0, 0⟩
        "a b".toList).width = strWidth monoFont10 "a b".toList ∧
    strDraw monoFont10 ⟨0, 0, 0, 0⟩ ⟨1, 1, 1, 1⟩ ⟨0, 0, 0, 0⟩ "a b".toList =
      strDraw monoFont10 ⟨0, 0, 0, 0⟩ ⟨1, 1, 1, 1⟩ ⟨0, 0, 0, 0⟩
        ("a b".toList.filter (fun c => (monoFont10.glyph c).isSome)) :=
  c8_width_conservation monoFont10 ⟨0, 0, 0, 0⟩ ⟨1, 1, 1, 1⟩ ⟨0, 0, 0, 0⟩
    "a b".toList (by decide)

theorem writeRow_spec (fb : Framebuffer) (idx : Nat) (row : List Pixel)
    (h : idx + row.length ≤ fb.frame.length) :
    ∃ fb', writeRow fb idx row = some fb' ∧ fb'.width = fb.width ∧
      fb'.frame.length = fb.frame.length ∧
      (∀ j, j < row.length → fb'.frame[idx + j]? = row[j]?) ∧
      (∀ i, i < idx ∨ idx + row.length ≤ i →
        fb'.frame[i]? = fb.frame[i]?) := by
  have hidx : idx ≤ fb.frame.length := by omega
  have htlen : (fb.frame.take idx).length = idx := by
    rw [List.length_take]
    omega
  have hablen : (fb.frame.take idx ++ row).length = idx + row.length := by
    rw [List.length_append, htlen]
  have hwr : writeRow fb idx row = some
      { fb with frame := fb.frame.take idx ++ row ++
          fb.frame.drop (idx + row.length) } := by
    rw [writeRow, if_pos h]
  refine ⟨_, hwr, rfl, ?_, ?_, ?_⟩
  · simp only [List.length_append, htlen, List.length_drop]
    omega
  · intro j hj
    rw [List.getElem?_append_left (by rw [hablen]; omega),
      List.getElem?_append_right (by rw [htlen]; omega), htlen]
    congr 1
    omega
  · intro i hi
    rcases hi with hlt | hge
    · rw [List.getElem?_append_left (by rw [hablen]; omega),
        List.getElem?_append_left (by rw [htlen]; omega),
        List.getElem?_take_of_lt hlt]
    · rw [List.getElem?_append_right (by rw [hablen]; omega), hablen,
        List.getElem?_drop]
      congr 1
      omega

theorem drawRowsAux_spec (r : Nat) :
    ∀ (rs : List (List Pixel)) (y0 : Nat) (fb : Framebuffer),
      (∀ row ∈ rs, row.length ≤ fb.width) →
      (r + y0 + rs.length) * fb.width ≤ fb.frame.length →
      ∃ fb', drawRowsAux r rs y0 fb = some fb' ∧ fb'.width = fb.width ∧
        fb'.frame.length = fb.frame.length ∧
        (∀ k row, rs[k]? = some row → ∀ j, j < row.length →
          fb'.frame[(r + y0 + k) * fb.width + j]? = row[j]?) ∧
        (∀ i, i < (r + y0) * fb.width ∨
            (r + y0 + rs.length) * fb.width ≤ i →
          fb'.frame[i]? = fb.frame[i]?) := by
  intro rs
  induction rs with
  | nil =>
    intro y0 fb _ _
    refine ⟨fb, rfl, rfl, rfl, ?_, fun i _ => rfl⟩
    intro k row hk
    simp at hk
  | cons row rest ih =>
    intro y0 fb hrows hbound
    have hrow : row.length ≤ fb.width := hrows row (List.mem_cons_self _ _)
    have hmul1 : (r + y0 + 1) * fb.width = (r + y0) * fb.width + fb.width :=
      Nat.succ_mul (r + y0) fb.width
    have hfac : r + y0 + (row :: rest).length = r + y0 + 1 + rest.length := by
      simp only [List.length_cons]
      omega
    have hmul2 : (r + y0 + 1) * fb.width ≤
        (r + y0 + 1 + rest.length) * fb.width :=
      Nat.mul_le_mul_right fb.width (by omega)
    have hbound' : (r + y0 + 1 + rest.length) * fb.width ≤
        fb.frame.length := by
      rw [hfac] at hbound
      exact hbound
    have hwbound : (r + y0) * fb.width + row.length ≤ fb.frame.length := by
      calc (r + y0) * fb.width + row.length
          ≤ (r + y0) * fb.width + fb.width :=
            Nat.add_le_add_left hrow _
        _ = (r + y0 + 1) * fb.width := hmul1.symm
        _ ≤ (r + y0 + 1 + rest.length) * fb.width := hmul2
        _ ≤ fb.frame.length := hbound'
    obtain ⟨fb1, hw1, hw2, hw3, hw4, hw5⟩ :=
      writeRow_spec fb ((r + y0) * fb.width) row hwbound
    have hrows1 : ∀ row' ∈ rest, row'.length ≤ fb1.width := by
      intro row' hr'
      rw [hw2]
      exact hrows row' (List.mem_cons_of_mem _ hr')
    have hfac2 : r + (y0 + 1) + rest.length = r + y0 + 1 + rest.length := by
      omega
    have hbound1 : (r + (y0 + 1) + rest.length) * fb1.width ≤
        fb1.frame.length := by
      rw [hw2, hw3, hfac2]
      exact hbound'
    obtain ⟨fb', hr1, hr2, hr3, hr4, hr5⟩ := ih (y0 + 1) fb1 hrows1 hbound1
    have hdraw : drawRowsAux r (row :: rest) y0 fb = some fb' := by
      simp only [drawRowsAux, Option.bind_eq_bind, hw1, Option.some_bind]
      exact hr1
    refine ⟨fb', hdraw, by rw [hr2, hw2], by rw [hr3, hw3], ?_, ?_⟩
    · intro k row' hk j hj
      match k, hk with
      | 0, hk =>
        have hrr : row = row' := by
          simpa using hk
        subst hrr
        have hlt : (r + y0 + 0) * fb.width + j <
            (r + (y0 + 1)) * fb1.width := by
          rw [hw2]
          have he : r + (y0 + 1) = r + y0 + 1 := by omega
          rw [he, hmul1, Nat.add_zero]
          omega
        rw [hr5 _ (Or.inl hlt)]
        have he0 : (r + y0 + 0) * fb.width + j = (r + y0) * fb.width + j := by
          rw [Nat.add_zero]
        rw [he0]
        exact hw4 j hj
      | k + 1, hk =>
        have hk' : rest[k]? = some row' := by
          simpa using hk
        have := hr4 k row' hk' j hj
        rw [hw2] at this
        have hfac3 : r + (y0 + 1) + k = r + y0 + (k + 1) := by omega
        rw [hfac3] at this
        exact this
    · intro i hi
      rcases hi with hlt | hge
      · have h1 : i < (r + (y0 + 1)) * fb1.width := by
          rw [hw2]
          calc i < (r + y0) * fb.width := hlt
            _ ≤ (r + (y0 + 1)) * fb.width :=
              Nat.mul_le_mul_right fb.width (by omega)
        rw [hr5 i (Or.inl h1)]
        exact hw5 i (Or.inl hlt)
      · have h2 : (r + (y0 + 1) + rest.length) * fb1.width ≤ i := by
          rw [hw2, hfac2, ← hfac]
          exact hge
        rw [hr5 i (Or.inr h2)]
        refine hw5 i (Or.inr ?_)
        calc (r + y0) * fb.width + row.length
            ≤ (r + y0 + 1) * fb.width := by
              rw [hmul1]
              omega
          _ ≤ (r + y0 + 1 + rest.length) * fb.width := hmul2
          _ = (r + y0 + (row :: rest).length) * fb.width := by rw [hfac]
          _ ≤ i := hge

theorem chunksExact_length {α : Type} (w : Nat) (l : List α) :
    (chunksExact w l).length = l.length / w := by
  simp [chunksExact]

theorem chunksExact_getElem? {α : Type} (w : Nat) (l : List α) (k : Nat)
    (hk : k < l.length / w) :
    (chunksExact w l)[k]? = some ((l.drop (k * w)).take w) := by
  have hk' : k < (chunksExact w l).length := by
    rw [chunksExact_length]
    exact hk
  rw [List.getElem?_eq_getElem hk']
  congr 1
  unfold chunksExact
  rw [List.getElem_map]
  rw [List.getElem_range]

/-- C7: blitting a block of height `H` and positive height at `start_y = r`
succeeds under the caller-side preconditions (block no wider than the
framebuffer, rows `[r, r+H)` within the frame): every blitted row reads back
exactly as the block's row starting at column 0, every pixel outside rows
`[r, r+H)` is untouched, the frame keeps its allocated length (no write
beyond it), and a width-zero block leaves the framebuffer entirely
unchanged. -/
theorem c7_blit_spec (b : Block) (fb : Framebuffer) (r : Nat)
    (hh : 0 < b.height)
    (hwf : b.pixels.length = b.height * b.width)
    (hbw : b.width ≤ fb.width)
    (hbound : (r + b.height) * fb.width ≤ fb.frame.length) :
    ∃ fb', b.draw_onto_pixels fb r = some fb' ∧
      fb'.width = fb.width ∧ fb'.frame.length = fb.frame.length ∧
      (∀ y j, y < b.height → j < b.width →
        fb'.frame[(r + y) * fb.width + j]? = b.pixels[y * b.width + j]?) ∧
      (∀ i, i < r * fb.width ∨ (r + b.height) * fb.width ≤ i →
        fb'.frame[i]? = fb.frame[i]?) ∧
      (b.width = 0 → fb' = fb) := by
  by_cases hw : b.width = 0
  · have hrows : b.rows = none := by rw [Block.rows, if_pos hw]
    have hdraw : b.draw_onto_pixels fb r = some fb := by
      simp only [Block.draw_onto_pixels, hrows]
    exact ⟨fb, hdraw, rfl, rfl,
      fun y j _ hj => absurd hj (by omega),
      fun i _ => rfl, fun _ => rfl⟩
  · have hw0 : 0 < b.width := Nat.pos_of_ne_zero hw
    have hrows : b.rows = some (chunksExact b.width b.pixels) := by
      rw [Block.rows, if_neg hw]
    have hcount : b.pixels.length / b.width = b.height := by
      rw [hwf]
      exact Nat.mul_div_cancel b.height hw0
    have hlenrs : (chunksExact b.width b.pixels).length = b.height := by
      rw [chunksExact_length, hcount]
    have hchunklen : ∀ k, k < b.height →
        ((b.pixels.drop (k * b.width)).take b.width).length = b.width := by
      intro k hk
      rw [List.length_take, List.length_drop, hwf]
      refine min_eq_left ?_
      have hs : (k + 1) * b.width ≤ b.height * b.width :=
        Nat.mul_le_mul_right _ (by omega)
      rw [Nat.succ_mul] at hs
      omega
    have hrowsmem : ∀ row ∈ chunksExact b.width b.pixels,
        row.length ≤ fb.width := by
      intro row hrow
      rw [chunksExact] at hrow
      obtain ⟨i, _, hieq⟩ := List.mem_map.mp hrow
      rw [← hieq]
      calc ((b.pixels.drop (i * b.width)).take b.width).length
          ≤ b.width := by
            rw [List.length_take]
            exact min_le_left _ _
        _ ≤ fb.width := hbw
    have hbound0 : (r + 0 + (chunksExact b.width b.pixels).length) *
        fb.width ≤ fb.frame.length := by
      rw [hlenrs]
      have he : r + 0 + b.height = r + b.height := by omega
      rw [he]
      exact hbound
    obtain ⟨fb', h1, h2, h3, h4, h5⟩ :=
      drawRowsAux_spec r (chunksExact b.width b.pixels) 0 fb hrowsmem hbound0
    have hdraw : b.draw_onto_pixels fb r = some fb' := by
      simp only [Block.draw_onto_pixels, hrows]
      exact h1
    refine ⟨fb', hdraw, h2, h3, ?_, ?_, fun hww => absurd hww hw⟩
    · intro y j hy hj
      have hky : (chunksExact b.width b.pixels)[y]? =
          some ((b.pixels.drop (y * b.width)).take b.width) :=
        chunksExact_getElem? b.width b.pixels y (by rw [hcount]; exact hy)
      have hjlen : j <
          ((b.pixels.drop (y * b.width)).take b.width).length := by
        rw [hchunklen y hy]
        exact hj
      have hmain := h4 y _ hky j hjlen
      have hchunkj : ((b.pixels.drop (y * b.width)).take b.width)[j]? =
          b.pixels[y * b.width + j]? := by
        rw [List.getElem?_take_of_lt hj, List.getElem?_drop]
      rw [hchunkj] at hmain
      have he : r + 0 + y = r + y := by omega
      rw [he] at hmain
      exact hmain
    · intro i hi
      refine h5 i ?_
      rcases hi with h | h
      · left
        have he : r + 0 = r := by omega
        rw [he]
        exact h
      · right
        rw [hlenrs]
        have he : r + 0 + b.height = r + b.height := by omega
        rw [he]
        exact h

/-- C7 witness: a 1×1 block blitted at row 1 of a 1-pixel-wide, two-row
framebuffer. -/
theorem c7_blit_spec_witness :
    ∃ fb', (Block.mk 1 [Pixel.mk 9 9 9 9]).draw_onto_pixels
        (Framebuffer.mk 1 [Pixel.mk 0 0 0 0, Pixel.mk 1 1 1 1]) 1 =
          some fb' ∧
      fb'.width = 1 ∧ fb'.frame.length = 2 ∧
      (∀ y j, y < 1 → j < 1 →
        fb'.frame[(1 + y) * 1 + j]? =
          ([Pixel.mk 9 9 9 9] : List Pixel)[y * 1 + j]?) ∧
      (∀ i, i < 1 * 1 ∨ (1 + 1) * 1 ≤ i →
        fb'.frame[i]? =
          ([Pixel.mk 0 0 0 0, Pixel.mk 1 1 1 1] : List Pixel)[i]?) ∧
      ((Block.mk 1 [Pixel.mk 9 9 9 9]).width = 0 →
        fb' = Framebuffer.mk 1 [Pixel.mk 0 0 0 0, Pixel.mk 1 1 1 1]) := by
  exact c7_blit_spec (Block.mk 1 [Pixel.mk 9 9 9 9])
    (Framebuffer.mk 1 [Pixel.mk 0 0 0 0, Pixel.mk 1 1 1 1]) 1
    (by decide) (by decide) (by decide) (by decide)

/-- C10: `Graph` iteration is newest-to-oldest: a push truncates the oldest
stored value and prepends the new one, so `iter()` yields the clamp of the
pushed value first, followed by the clamps of the surviving older values;
concretely, `new(3)` then pushes 1, 2, 3, 4 iterates as `[4, 3, 2]`. -/
theorem c10_iter_newest_first :
    (∀ (g : Graph) (v : ℚ),
      (g.push v).iterList =
        g.range.clamp v :: g.iterList.take (g.len - 1)) ∧
    ((Graph.new 3).pushAll [1, 2, 3, 4]).iterList = [4, 3, 2] := by
  constructor
  · intro g v
    simp [Graph.iterList, Graph.push, Graph.len, List.map_take]
  · decide

theorem prepareLinesFuel_requeue_none (fuel : Nat) :
    prepareLinesFuel monoFont10 15 fuel ["aa b".toList] = none := by
  induction fuel with
  | zero => rfl
  | succ n ih =>
    have h : prepareLine monoFont10 15 "aa b".toList =
        some ([], some ("aa b".toList)) := by decide
    simp only [prepareLinesFuel, h, Option.bind_eq_bind, Option.some_bind,
      ih, Option.none_bind]

/-- C2: `State::prepare_lines` does not terminate on every input: with every
glyph 10 pixels wide and `window_width = 15`, the single logical line
`"aa b"` (first word wider than the window) makes one pass of the outer loop
emit the empty line and push the very same line `"aa b"` back onto the
deque, so no amount of fuel completes the loop. -/
theorem c2_prepare_lines_diverges :
    prepareLine monoFont10 15 "aa b".toList =
      some ([], some ("aa b".toList)) ∧
    rustLines "aa b".toList = ["aa b".toList] ∧
    ∀ fuel, prepareLines monoFont10 15 fuel "aa b".toList = none := by
  refine ⟨by decide, by decide, ?_⟩
  intro fuel
  have h : rustLines "aa b".toList = ["aa b".toList] := by decide
  rw [prepareLines, h]
  exact prepareLinesFuel_requeue_none fuel

end Gemininini
